import Mathlib

/-!
Verification of the luBoard contest scoreboard against its specification.

The repository has two Python sources:
  - `src/data_parser.py` : `calculate_final_board_state` (the Final-State
    Resolver) and `parse_contest_data` (the log loader entry point);
  - `src/app.py` : the Flask glue with `recalculate_board` (ranking),
    `update_submission` (operator mutation surface) and
    `load_and_initialize_board`.

This file gives a shallow embedding of those functions and proves or refutes
the frozen claims about them.  Python dicts are embedded as association lists
that preserve insertion order; Python ints are `Int`; Python floor division
`//` is `Int.fdiv`; Python strings are `String` manipulated through their
character lists.
-/

namespace LuBoard

/-- Team metadata as parsed from a `@t` line of `contest.dat`. -/
structure TeamInfo where
  id : Int
  school : String
  name : String
deriving DecidableEq, Repr

/-- Problem metadata as parsed from a `@p` line of `contest.dat`. -/
structure ProbInfo where
  name : String
  penalty_time : Int
deriving DecidableEq, Repr

/-- One submission record as parsed from an `@s` line of `contest.dat`:
team id, problem id, elapsed time in seconds, and verdict string. -/
structure Sub where
  team_id : Int
  prob_id : String
  time : Int
  status : String
deriving DecidableEq, Repr

/-- The per-(team, problem) accumulator kept in `final_statuses` inside
`calculate_final_board_state` (src/data_parser.py lines 53-73). -/
structure PairStatus where
  attempts_before_ac : Nat
  is_ac : Bool
  solved_time : Int
  penalty : Int
  effective_last_sub_time : Int
deriving DecidableEq, Repr

/-- One scoreboard cell as assembled at src/data_parser.py lines 88-96:
the live display fields plus the `final_`-prefixed terminal outcome. -/
structure Cell where
  display : String
  solved_time : Int
  penalty : Int
  last_submission_time : Int
  final_is_ac : Bool
  final_solved_time : Int
  final_penalty : Int
  final_attempts_to_ac : Nat
  final_effective_last_sub_time : Int
  final_total_attempts : Nat
deriving DecidableEq, Repr

/-- One board row as assembled at src/data_parser.py lines 98-102. -/
structure Row where
  team_id : Int
  rank : Nat
  team : String
  solved : Nat
  penalty : Int
  status : List (String × Cell)
deriving DecidableEq, Repr

/-! ### Association-list embedding of Python dicts -/

/-- Lookup in an insertion-ordered association list (Python `d[k]` / `d.get`). -/
def alookup {κ ν : Type} [DecidableEq κ] (k : κ) : List (κ × ν) → Option ν
  | [] => none
  | e :: t => if e.1 = k then some e.2 else alookup k t

/-- Store into an insertion-ordered association list (Python `d[k] = v`):
replaces the first binding of `k` in place, or appends a new binding. -/
def aset {κ ν : Type} [DecidableEq κ] (k : κ) (v : ν) : List (κ × ν) → List (κ × ν)
  | [] => [(k, v)]
  | e :: t => if e.1 = k then (k, v) :: t else e :: aset k v t

/-- Key membership test (Python `k in d`). -/
def amem {κ ν : Type} [DecidableEq κ] (k : κ) (l : List (κ × ν)) : Bool :=
  l.any (fun e => e.1 = k)

/-! ### String helpers mirroring the Python string operations used -/

/-- Python `c in s` for a single character. -/
def containsChar (s : String) (c : Char) : Bool := s.data.contains c

/-- Python `s.replace(c, "")` for a single character `c`. -/
def stripChar (s : String) (c : Char) : String := ⟨s.data.filter (fun x => x ≠ c)⟩

/-- Python `int(s)` on a string of decimal digits. -/
def digitsToNat (s : String) : Nat := s.data.foldl (fun n c => n * 10 + (c.toNat - 48)) 0

/-- The decimal digit character for `d < 10`. -/
def digitChar (d : Nat) : Char := Char.ofNat (48 + d)

/-- Fuel-driven decimal digit expansion: for any fuel exceeding `n` this is
the decimal digit list of `n`, most significant first.  The explicit fuel
keeps the recursion structural, so it evaluates inside the kernel. -/
def natDigitsAux : Nat → Nat → List Char
  | 0, _ => []
  | fuel + 1, n =>
    if n < 10 then [digitChar n]
    else natDigitsAux fuel (n / 10) ++ [digitChar (n % 10)]

/-- Decimal digit list of a natural number, most significant first. -/
def natDigits (n : Nat) : List Char := natDigitsAux (n + 1) n

/-- Python `str(n)` for a non-negative integer. -/
def natRepr (n : Nat) : String := ⟨natDigits n⟩

/-! ### The Final-State Resolver (src/data_parser.py, calculate_final_board_state) -/

/-- Python `sub['status'] in ('OK', 'AC')` (src/data_parser.py line 64). -/
def isAccepted (s : Sub) : Bool := s.status = "OK" || s.status = "AC"

/-- Comparison used by `submissions.sort(key=lambda x: x['time'])`
(src/data_parser.py line 35). -/
def subLe (a b : Sub) : Prop := a.time ≤ b.time

instance : DecidableRel subLe := fun a b => inferInstanceAs (Decidable (a.time ≤ b.time))

instance : IsTotal Sub subLe := ⟨fun a b => Int.le_total a.time b.time⟩

instance : IsTrans Sub subLe := ⟨fun _ _ _ hab hbc => le_trans hab hbc⟩

/-- The list value held by the `submissions` argument after the in-place
`submissions.sort(key=lambda x: x['time'])` at src/data_parser.py line 35.
Python `list.sort` is stable; insertion sort with a total preorder realizes
the same stable order. -/
def sortByTime (l : List Sub) : List Sub := List.insertionSort subLe l

/-- The fresh accumulator installed at src/data_parser.py lines 54-57. -/
def defaultStatus : PairStatus :=
  { attempts_before_ac := 0, is_ac := false, solved_time := -1,
    penalty := 0, effective_last_sub_time := -1 }

/-- One iteration of the submission-processing loop of
`calculate_final_board_state` (src/data_parser.py lines 45-73). -/
def stepStatus (teams : List (Int × TeamInfo)) (problems : List (String × ProbInfo))
    (m : List ((Int × String) × PairStatus)) (s : Sub) :
    List ((Int × String) × PairStatus) :=
  if amem s.team_id teams && amem s.prob_id problems then
    let st := (alookup (s.team_id, s.prob_id) m).getD defaultStatus
    if st.is_ac then m
    else
      let st1 :=
        if isAccepted s then
          let penalty_per_wa := ((alookup s.prob_id problems).getD ⟨"", 0⟩).penalty_time
          { st with is_ac := true, solved_time := s.time,
                    penalty := Int.fdiv s.time 60 + (st.attempts_before_ac : Int) * penalty_per_wa,
                    effective_last_sub_time := s.time }
        else
          { st with attempts_before_ac := st.attempts_before_ac + 1,
                    effective_last_sub_time := s.time }
      aset (s.team_id, s.prob_id) st1 m
  else m

/-- The `final_statuses` map after the whole submission-processing loop,
run over the time-sorted submission list (src/data_parser.py lines 35-73). -/
def pairStatuses (teams : List (Int × TeamInfo)) (problems : List (String × ProbInfo))
    (submissions : List Sub) : List ((Int × String) × PairStatus) :=
  List.foldl (stepStatus teams problems) [] (sortByTime submissions)

/-- The value read from `total_attempts_map` with default 0
(src/data_parser.py lines 38-41 and 85): the number of submissions of the
given (team, problem) pair. -/
def countAttempts (submissions : List Sub) (k : Int × String) : Nat :=
  List.countP (fun s => decide (s.team_id = k.1 ∧ s.prob_id = k.2)) submissions

/-- Lexicographic comparison of character lists by code point, the order
Python uses on strings. -/
def charListLt : List Char → List Char → Bool
  | _, [] => false
  | [], _ :: _ => true
  | a :: s, b :: t =>
    if a.toNat < b.toNat then true
    else if b.toNat < a.toNat then false
    else charListLt s t

/-- String comparison used by `sorted(problems.keys())`
(src/data_parser.py line 77): code-point lexicographic order. -/
def strLe (a b : String) : Prop := charListLt a.data b.data = true ∨ a = b

instance : DecidableRel strLe := fun a b =>
  inferInstanceAs (Decidable (charListLt a.data b.data = true ∨ a = b))

/-- The Final-State Resolver, `calculate_final_board_state`
(src/data_parser.py lines 14-104). -/
def calculate_final_board_state (teams : List (Int × TeamInfo))
    (problems : List (String × ProbInfo)) (submissions : List Sub) :
    List String × List Row :=
  let final_statuses := pairStatuses teams problems submissions
  let problem_ids := List.insertionSort strLe (problems.map Prod.fst)
  let initial_board := teams.map (fun t =>
    let team_status := problem_ids.map (fun p_id =>
      let final_status := (alookup (t.1, p_id) final_statuses).getD defaultStatus
      let total_raw_attempts := countAttempts submissions (t.1, p_id)
      ((p_id,
        { display := "", solved_time := 0, penalty := 0, last_submission_time := -1,
          final_is_ac := final_status.is_ac,
          final_solved_time := final_status.solved_time,
          final_penalty := final_status.penalty,
          final_attempts_to_ac :=
            if final_status.is_ac then final_status.attempts_before_ac + 1
            else final_status.attempts_before_ac,
          final_effective_last_sub_time := final_status.effective_last_sub_time,
          final_total_attempts := total_raw_attempts }) : String × Cell))
    { team_id := t.1, rank := 0,
      team := if t.2.school ≠ "" then t.2.school ++ " - " ++ t.2.name else t.2.name,
      solved := 0, penalty := 0, status := team_status })
  (problem_ids, initial_board)

/-! ### Ranking (src/app.py, recalculate_board) -/

/-- Comparison realizing `sort(key=lambda x: (-x['solved'], x['penalty']))`
(src/app.py line 140): solved count descending, then penalty ascending.
Python `list.sort` is stable; insertion sort with this total preorder
realizes the same stable order. -/
def rowLe (a b : Row) : Prop :=
  b.solved < a.solved ∨ (a.solved = b.solved ∧ a.penalty ≤ b.penalty)

instance : DecidableRel rowLe := fun a b =>
  inferInstanceAs (Decidable (b.solved < a.solved ∨ (a.solved = b.solved ∧ a.penalty ≤ b.penalty)))

instance : IsTotal Row rowLe := by
  constructor
  intro a b
  unfold rowLe
  omega

instance : IsTrans Row rowLe := by
  constructor
  intro a b c hab hbc
  unfold rowLe at hab hbc ⊢
  omega

/-- The per-team aggregation loop of `recalculate_board`
(src/app.py lines 131-139): count the cells whose display contains a plus
sign and sum their penalties. -/
def recomputeRow (r : Row) : Row :=
  let sp := r.status.foldl
    (fun (acc : Nat × Int) pc =>
      if containsChar pc.2.display '+' then (acc.1 + 1, acc.2 + pc.2.penalty) else acc)
    ((0 : Nat), (0 : Int))
  { r with solved := sp.1, penalty := sp.2 }

/-- The rank-assignment loop of `recalculate_board` (src/app.py lines
142-150), with accumulators `i`, `rank`, `last_solved`, `last_penalty`. -/
def rankRows : Nat → Nat → Int → Int → List Row → List Row
  | _, _, _, _, [] => []
  | i, rank, lastS, lastP, r :: t =>
    let rank1 := if (r.solved : Int) ≠ lastS ∨ r.penalty ≠ lastP then i + 1 else rank
    { r with rank := rank1 } :: rankRows (i + 1) rank1 (r.solved : Int) r.penalty t

/-- The mutation of `board_data` performed by `recalculate_board`
(src/app.py lines 130-150), as a function on the board.  The statistics
assignment at line 141 writes only `CONTEST_STATE["statistics"]` and never
touches the board rows, so it does not appear in the board transformation. -/
def recalculate_board (board : List Row) : List Row :=
  rankRows 0 0 (-1) (-1) (List.insertionSort rowLe (board.map recomputeRow))

/-! ### The operator mutation surface (src/app.py, update_submission POST) -/

/-- The form fields read by the POST branch of `update_submission`
(src/app.py lines 176-196); `solved_time_min` holds the already-parsed
minute value (the try/except at lines 193-196 substitutes 0 on a
malformed value). -/
structure UpdateForm where
  team_id : Int
  problem_id : String
  result : String
  solved_time_min : Int
deriving DecidableEq, Repr

/-- The cell mutation of `update_submission` (src/app.py lines 189-209):
on result AC for a cell without a plus, store the minute value into
`solved_time`, prepend a plus to the display, and set
penalty = minute + attempts * 20 with the constant 20 from line 199;
otherwise on a cell without a plus append one more minus. -/
def updateCell (c : Cell) (f : UpdateForm) : Cell :=
  if f.result = "AC" then
    if !containsChar c.display '+' then
      let solved_time_min := f.solved_time_min
      let penalty_per_wa : Int := 20
      let attempts := if c.display ≠ "" then digitsToNat (stripChar c.display '-') else 0
      { c with solved_time := solved_time_min,
               display := "+" ++ (if attempts > 0 then natRepr attempts else ""),
               penalty := solved_time_min + (attempts : Int) * penalty_per_wa }
    else c
  else
    if !containsChar c.display '+' then
      let attempts := if c.display ≠ "" then digitsToNat (stripChar c.display '-') else 0
      { c with display := "-" ++ natRepr (attempts + 1) }
    else c

/-- The guarded in-place cell update of `update_submission`
(src/app.py lines 186-209): only when `prob_id` is a key of the row's
status dict. -/
def applyToRow (r : Row) (f : UpdateForm) : Row :=
  match alookup f.problem_id r.status with
  | some c => { r with status := aset f.problem_id (updateCell c f) r.status }
  | none => r

/-- The team-lookup loop of `update_submission` (src/app.py lines 180-184):
the first row whose team id matches is mutated, every other row is kept. -/
def findAndApply : List Row → UpdateForm → List Row
  | [], _ => []
  | r :: t, f => if r.team_id = f.team_id then applyToRow r f :: t else r :: findAndApply t f

/-- The POST branch of `update_submission` (src/app.py lines 175-212):
mutate the matching cell of the live board in place, then re-invoke
`recalculate_board`.  The submission list is not touched and
`calculate_final_board_state` is not called. -/
def update_submission (board : List Row) (f : UpdateForm) : List Row :=
  recalculate_board (findAndApply board f)

/-! ### The loader entry point (src/data_parser.py, parse_contest_data) -/

/-- Models `parse_contest_data` (src/data_parser.py lines 106-163).  The
line-oriented text parsing is outside the claims (the spec treats the
loader text format as an external black box), so the file is abstracted as
either absent or present with already-parsed content.  What is kept is the
control flow that the claims are about: on `FileNotFoundError` the except
branch at lines 157-158 returns empty structures without invoking
`calculate_final_board_state`; otherwise the resolver is invoked and the
five-tuple is returned. -/
def parse_contest_data
    (file : Option (List (Int × TeamInfo) × List (String × ProbInfo) × List Sub)) :
    List String × List Row × List Sub × List (String × ProbInfo) × List (Int × TeamInfo) :=
  match file with
  | none => ([], [], [], [], [])
  | some (teams, problems, submissions) =>
    let r := calculate_final_board_state teams problems submissions
    (r.1, r.2, submissions, problems, teams)

/-! ### The Time-Slice Projector (modelled from the spec) -/

/-- Tests whether a display cell is shown as solved (its display string
starts with a plus sign). -/
def startsWithPlus (s : String) : Bool := s.data.head? = some '+'

/-- Modelled from the spec: the Time-Slice Projector of spec section 4.2 is
not among the provided sources (it lives in the frontend templates, outside
src/), so its per-cell rule is modelled from the words of the spec: if the
baseline says ultimately accepted and the baseline acceptance time is at
most the cutoff, show a plus cell with solve minute and the baseline
penalty; else if some submission for the pair has time at most the cutoff,
show a minus cell counting the non-accepted filtered submissions; else
leave the cell untouched. -/
def projectCell (c : Cell) (pairSubs : List Sub) (cutoff : Int) : Cell :=
  let filtered := pairSubs.filter (fun s => decide (s.time ≤ cutoff))
  if c.final_is_ac && decide (c.final_solved_time ≤ cutoff) then
    let suffix := if c.final_attempts_to_ac - 1 > 1 then natRepr (c.final_attempts_to_ac - 1) else ""
    { c with display := "+" ++ suffix,
             solved_time := Int.fdiv c.final_solved_time 60,
             penalty := c.final_penalty }
  else if !filtered.isEmpty then
    { c with display := "-" ++ natRepr (List.countP (fun s => !isAccepted s) filtered) }
  else c

/-- Modelled from the spec: the board-level Time-Slice Projector of spec
section 4.2, built from `projectCell`, per-team aggregation over the shown
cells, and the shared ranking step of section 4.3 (the same sort and dense
rank assignment as `recalculate_board`). -/
def project (baseline : List Row) (submissions : List Sub) (cutoff : Int) : List Row :=
  let rows := baseline.map (fun r =>
    let status := r.status.map (fun pc =>
      (pc.1, projectCell pc.2
        (submissions.filter (fun s => decide (s.team_id = r.team_id ∧ s.prob_id = pc.1)))
        cutoff))
    let solved := List.countP (fun pc => startsWithPlus pc.2.display) status
    let penalty := status.foldl
      (fun (acc : Int) pc => if startsWithPlus pc.2.display then acc + pc.2.penalty else acc) 0
    { r with status := status, solved := solved, penalty := penalty })
  rankRows 0 0 (-1) (-1) (List.insertionSort rowLe rows)

/-! ### Association-list lemmas -/

theorem alookup_aset_self {κ ν : Type} [DecidableEq κ] (k : κ) (v : ν) (l : List (κ × ν)) :
    alookup k (aset k v l) = some v := by
  induction l with
  | nil => simp [aset, alookup]
  | cons e t ih =>
    by_cases h : e.1 = k
    · simp [aset, h, alookup]
    · simp [aset, h, alookup, ih]

theorem alookup_aset_ne {κ ν : Type} [DecidableEq κ] {k k' : κ} (v : ν) (l : List (κ × ν))
    (h : k ≠ k') : alookup k' (aset k v l) = alookup k' l := by
  induction l with
  | nil => simp [aset, alookup, h]
  | cons e t ih =>
    by_cases he : e.1 = k
    · simp [aset, he, alookup, h]
    · simp [aset, he, alookup, ih]

theorem alookup_mem {κ ν : Type} [DecidableEq κ] {k : κ} {v : ν} {l : List (κ × ν)}
    (h : alookup k l = some v) : (k, v) ∈ l := by
  induction l with
  | nil => simp [alookup] at h
  | cons e t ih =>
    by_cases he : e.1 = k
    · simp [alookup, he] at h
      cases e
      simp_all
    · simp [alookup, he] at h
      exact List.mem_cons_of_mem _ (ih h)

theorem amem_map_fst {κ ν : Type} [DecidableEq κ] {k : κ} {l : List (κ × ν)} :
    amem k l = true ↔ k ∈ l.map Prod.fst := by
  simp [amem, List.any_eq_true, List.mem_map]

/-! ### Lemmas about the resolver loop step -/

/-- The (team, problem) key of a submission. -/
def keyOf (s : Sub) : Int × String := (s.team_id, s.prob_id)

/-- The penalty-per-wrong-attempt read off `problems[prob_id]` in the
acceptance branch of the resolver. -/
def probPenalty (problems : List (String × ProbInfo)) (P : String) : Int :=
  ((alookup P problems).getD ⟨"", 0⟩).penalty_time

theorem stepStatus_lookup_ne (teams : List (Int × TeamInfo))
    (problems : List (String × ProbInfo)) (m : List ((Int × String) × PairStatus))
    (s : Sub) {k : Int × String} (hk : keyOf s ≠ k) :
    alookup k (stepStatus teams problems m s) = alookup k m := by
  unfold keyOf at hk
  unfold stepStatus
  by_cases hg : (amem s.team_id teams && amem s.prob_id problems) = true
  · simp only [hg, if_true]
    by_cases hac : ((alookup (s.team_id, s.prob_id) m).getD defaultStatus).is_ac = true
    · simp [hac]
    · simp only [Bool.not_eq_true] at hac
      simp only [hac, Bool.false_eq_true, if_false]
      exact alookup_aset_ne _ _ hk
  · simp [hg]

theorem stepStatus_frozen (teams : List (Int × TeamInfo))
    (problems : List (String × ProbInfo)) (m : List ((Int × String) × PairStatus))
    (s : Sub) {st : PairStatus} (hl : alookup (keyOf s) m = some st)
    (hac : st.is_ac = true) : stepStatus teams problems m s = m := by
  unfold keyOf at hl
  unfold stepStatus
  by_cases hg : (amem s.team_id teams && amem s.prob_id problems) = true
  · simp [hg, hl, hac]
  · simp [hg]

theorem fold_frozen (teams : List (Int × TeamInfo)) (problems : List (String × ProbInfo))
    (l : List Sub) (m : List ((Int × String) × PairStatus)) {k : Int × String}
    {st : PairStatus} (hl : alookup k m = some st) (hac : st.is_ac = true) :
    alookup k (List.foldl (stepStatus teams problems) m l) = some st := by
  induction l generalizing m with
  | nil => simpa using hl
  | cons e t ih =>
    simp only [List.foldl_cons]
    by_cases hk : keyOf e = k
    · rw [stepStatus_frozen teams problems m e (hk ▸ hl) hac]
      exact ih m hl
    · exact ih _ ((stepStatus_lookup_ne teams problems m e hk).trans hl)

/-- Invariant of the resolver loop: every accepted accumulator carries the
penalty floor(solved seconds / 60) + rejections-before-acceptance times the
penalty-per-wrong-attempt of its problem, and its solve time is the time of
an actual accepted submission of its pair drawn from `S`. -/
theorem fold_penalty_inv (teams : List (Int × TeamInfo))
    (problems : List (String × ProbInfo)) (S : List Sub) :
    ∀ (l : List Sub) (m : List ((Int × String) × PairStatus)),
      (∀ e ∈ l, e ∈ S) →
      (∀ k st, alookup k m = some st → st.is_ac = true →
        st.penalty = Int.fdiv st.solved_time 60 +
            (st.attempts_before_ac : Int) * probPenalty problems k.2 ∧
          ∃ s ∈ S, s.team_id = k.1 ∧ s.prob_id = k.2 ∧ isAccepted s = true ∧
            s.time = st.solved_time) →
      ∀ k st, alookup k (List.foldl (stepStatus teams problems) m l) = some st →
        st.is_ac = true →
        st.penalty = Int.fdiv st.solved_time 60 +
            (st.attempts_before_ac : Int) * probPenalty problems k.2 ∧
          ∃ s ∈ S, s.team_id = k.1 ∧ s.prob_id = k.2 ∧ isAccepted s = true ∧
            s.time = st.solved_time := by
  intro l
  induction l with
  | nil => intro m _ hm; simpa using hm
  | cons e t ih =>
    intro m hsub hm
    simp only [List.foldl_cons]
    refine ih _ (fun x hx => hsub x (List.mem_cons_of_mem _ hx)) ?_
    intro k st hlook hac
    by_cases hk : keyOf e = k
    · subst hk
      unfold keyOf at hlook
      unfold stepStatus at hlook
      by_cases hg : (amem e.team_id teams && amem e.prob_id problems) = true
      · simp only [hg, if_true] at hlook
        by_cases hac0 : ((alookup (e.team_id, e.prob_id) m).getD defaultStatus).is_ac = true
        · simp only [hac0, if_true] at hlook
          exact hm _ _ hlook hac
        · simp only [Bool.not_eq_true] at hac0
          simp only [hac0, Bool.false_eq_true, if_false] at hlook
          rw [alookup_aset_self] at hlook
          cases hacc : isAccepted e with
          | true =>
            simp only [hacc, if_true] at hlook
            injection hlook with hst
            subst hst
            constructor
            · simp [probPenalty, keyOf]
            · exact ⟨e, hsub e (List.mem_cons_self e t), rfl, rfl, hacc, rfl⟩
          | false =>
            simp only [hacc, Bool.false_eq_true, if_false] at hlook
            injection hlook with hst
            subst hst
            simp at hac
      · simp only [hg, Bool.false_eq_true, if_false] at hlook
        exact hm _ _ hlook hac
    · rw [stepStatus_lookup_ne teams problems m e hk] at hlook
      exact hm _ _ hlook hac

/-- Reading of the claim aggregate "solved count" off the resolver's
terminal fields: the number of problems whose cell is terminally accepted. -/
def finalSolvedCount (r : Row) : Nat :=
  List.countP (fun pc => pc.2.final_is_ac) r.status

/-- Reading of the claim aggregate "total penalty" off the resolver's
terminal fields: the sum of the terminal penalties of the accepted cells. -/
def finalTotalPenalty (r : Row) : Int :=
  List.foldl (fun acc pc => if pc.2.final_is_ac then acc + pc.2.final_penalty else acc) 0 r.status

/-- Concrete team set of the scenario of claim C2. -/
def c2Teams : List (Int × TeamInfo) := [(1, ⟨1, "", "T1"⟩)]

/-- Concrete problem set of the scenario of claim C2: A and B, both with
penalty-per-wrong-attempt 20. -/
def c2Problems : List (String × ProbInfo) := [("A", ⟨"A", 20⟩), ("B", ⟨"B", 20⟩)]

/-- Concrete submissions of the scenario of claim C2: team 1 submits A
rejected at t = 60 s, A accepted at t = 200 s, B accepted at t = 300 s. -/
def c2Subs : List Sub :=
  [⟨1, "A", 60, "RJ"⟩, ⟨1, "A", 200, "OK"⟩, ⟨1, "B", 300, "OK"⟩]

/-- C2: for every submission sequence, an accepted pair's penalty recorded
by the resolver equals floor(acceptance seconds / 60) plus the number of
rejected attempts before acceptance times that problem's
penalty-per-wrong-attempt, the acceptance time being the time of an actual
accepted submission of the pair; and in the concrete scenario (problems A
and B with penalty 20; team 1 submits A rejected at 60 s, A accepted at
200 s, B accepted at 300 s) the resolver gives A penalty 23, B penalty 5,
two terminally solved problems, and total terminal penalty 28. -/
theorem c2_penalty_formula_and_scenario :
    (∀ (teams : List (Int × TeamInfo)) (problems : List (String × ProbInfo))
        (subs : List Sub) (T : Int) (P : String) (st : PairStatus),
      alookup (T, P) (pairStatuses teams problems subs) = some st →
      st.is_ac = true →
      st.penalty = Int.fdiv st.solved_time 60 +
          (st.attempts_before_ac : Int) * probPenalty problems P ∧
        ∃ s ∈ subs, s.team_id = T ∧ s.prob_id = P ∧ isAccepted s = true ∧
          s.time = st.solved_time) ∧
    (calculate_final_board_state c2Teams c2Problems c2Subs).2.map
        (fun r => ((alookup "A" r.status).map Cell.final_penalty,
                   (alookup "B" r.status).map Cell.final_penalty,
                   finalSolvedCount r, finalTotalPenalty r)) =
      [(some 23, some 5, 2, 28)] := by
  constructor
  · intro teams problems subs T P st hlook hac
    exact fold_penalty_inv teams problems subs (sortByTime subs) []
      (fun e he => (List.perm_insertionSort subLe subs).subset he)
      (by intro k st hl; simp [alookup] at hl)
      (T, P) st hlook hac
  · decide

/-- Closed instantiation of the penalty-formula part of C2 at the scenario
input: pair (1, A) is accepted with the recorded accumulator, and the
formula yields its penalty 23. -/
theorem c2_witness :
    (⟨1, true, 200, 23, 200⟩ : PairStatus).penalty =
        Int.fdiv (⟨1, true, 200, 23, 200⟩ : PairStatus).solved_time 60 +
          ((⟨1, true, 200, 23, 200⟩ : PairStatus).attempts_before_ac : Int) *
            probPenalty c2Problems "A" ∧
      ∃ s ∈ c2Subs, s.team_id = 1 ∧ s.prob_id = "A" ∧ isAccepted s = true ∧
        s.time = (⟨1, true, 200, 23, 200⟩ : PairStatus).solved_time :=
  c2_penalty_formula_and_scenario.1 c2Teams c2Problems c2Subs 1 "A"
    ⟨1, true, 200, 23, 200⟩ (by decide) rfl

/-- Concrete one-team, one-problem fixture. -/
def oneTeam : List (Int × TeamInfo) := [(1, ⟨1, "", "T1"⟩)]

/-- Concrete problem set with a single problem A of penalty 20. -/
def oneProblem : List (String × ProbInfo) := [("A", ⟨"A", 20⟩)]

/-- The blank cell the resolver emits for an untouched pair. -/
def blankCellA : Cell := ⟨"", 0, 0, -1, false, -1, 0, 0, -1, 0⟩

/-- The board row the resolver emits for team 1 with no submissions. -/
def blankRow : Row := ⟨1, 0, "T1", 0, 0, [("A", blankCellA)]⟩

/-- The row of `blankRow` after ranking. -/
def rankedBlankRow : Row := ⟨1, 1, "T1", 0, 0, [("A", blankCellA)]⟩

/-- Helper: a fold that counts plus displays and sums their penalties is the
identity on its accumulator when no display contains a plus. -/
theorem foldl_plus_of_none (l : List (String × Cell)) :
    ∀ acc : Nat × Int, (∀ pc ∈ l, containsChar pc.2.display '+' = false) →
      List.foldl
        (fun (acc : Nat × Int) pc =>
          if containsChar pc.2.display '+' then (acc.1 + 1, acc.2 + pc.2.penalty) else acc)
        acc l = acc := by
  induction l with
  | nil => intro acc _; rfl
  | cons pc t ih =>
    intro acc hall
    simp only [List.foldl_cons, hall pc (List.mem_cons_self pc t), Bool.false_eq_true, if_false]
    exact ih acc (fun x hx => hall x (List.mem_cons_of_mem _ hx))

/-- Helper: every row of `rankRows` is a row of the input with only the rank
field replaced. -/
theorem rankRows_mem {x : Row} :
    ∀ {l : List Row} {i rank : Nat} {lastS lastP : Int},
      x ∈ rankRows i rank lastS lastP l → ∃ y ∈ l, x = { y with rank := x.rank } := by
  intro l
  induction l with
  | nil => intro i rank lastS lastP hx; simp [rankRows] at hx
  | cons r t ih =>
    intro i rank lastS lastP hx
    simp only [rankRows, List.mem_cons] at hx
    rcases hx with hx | hx
    · exact ⟨r, List.mem_cons_self r t, by rw [hx]⟩
    · obtain ⟨y, hy, hxy⟩ := ih hx
      exact ⟨y, List.mem_cons_of_mem _ hy, hxy⟩

/-- Helper: every row of `recalculate_board board` comes from a row of
`board`, with the same team identity and status cells, and with solved and
penalty recomputed by the plus-counting fold. -/
theorem recalculate_board_mem {x : Row} {board : List Row}
    (hx : x ∈ recalculate_board board) :
    ∃ y ∈ board, x = { recomputeRow y with rank := x.rank } := by
  unfold recalculate_board at hx
  obtain ⟨z, hz, hxz⟩ := rankRows_mem hx
  have hz2 : z ∈ board.map recomputeRow :=
    (List.perm_insertionSort rowLe (board.map recomputeRow)).subset hz
  obtain ⟨y, hy, hyz⟩ := List.mem_map.mp hz2
  exact ⟨y, hy, by rw [hxz, ← hyz]⟩

/-- C3: every cell of the board returned by the resolver has empty display,
zero display penalty and zero display solved time (terminal outcomes live
only in the final-prefixed fields); consequently `recalculate_board`, which
counts a problem as solved only when a plus occurs in the display, assigns
solved 0 and penalty 0 to every team of a freshly loaded board, whatever
the submissions were. -/
theorem c3_baseline_blank_and_recalc_zero
    (teams : List (Int × TeamInfo)) (problems : List (String × ProbInfo))
    (subs : List Sub) :
    (∀ r ∈ (calculate_final_board_state teams problems subs).2,
      ∀ pc ∈ r.status, pc.2.display = "" ∧ pc.2.penalty = 0 ∧ pc.2.solved_time = 0) ∧
    (∀ r ∈ recalculate_board (calculate_final_board_state teams problems subs).2,
      r.solved = 0 ∧ r.penalty = 0) := by
  have hblank : ∀ r ∈ (calculate_final_board_state teams problems subs).2,
      ∀ pc ∈ r.status, pc.2.display = "" ∧ pc.2.penalty = 0 ∧ pc.2.solved_time = 0 := by
    intro r hr pc hpc
    unfold calculate_final_board_state at hr
    simp only [List.mem_map] at hr
    obtain ⟨t, _, ht⟩ := hr
    rw [← ht] at hpc
    simp only [List.mem_map] at hpc
    obtain ⟨p, _, hp⟩ := hpc
    rw [← hp]
    exact ⟨rfl, rfl, rfl⟩
  refine ⟨hblank, ?_⟩
  intro r hr
  obtain ⟨y, hy, hry⟩ := recalculate_board_mem hr
  have hy0 : ∀ pc ∈ y.status, containsChar pc.2.display '+' = false := by
    intro pc hpc
    have := (hblank y hy pc hpc).1
    rw [this]
    rfl
  have hrec : (recomputeRow y).solved = 0 ∧ (recomputeRow y).penalty = 0 := by
    unfold recomputeRow
    rw [foldl_plus_of_none y.status ((0 : Nat), (0 : Int)) hy0]
    exact ⟨rfl, rfl⟩
  rw [hry]
  exact hrec

/-- Closed instantiation of C3 on a one-team, one-problem, no-submission
fixture: the single cell is blank and the ranked row has solved 0,
penalty 0. -/
theorem c3_witness :
    (("A", blankCellA) : String × Cell).2.display = "" ∧
      (("A", blankCellA) : String × Cell).2.penalty = 0 ∧
      (("A", blankCellA) : String × Cell).2.solved_time = 0 ∧
      rankedBlankRow.solved = 0 ∧ rankedBlankRow.penalty = 0 := by
  have h := c3_baseline_blank_and_recalc_zero oneTeam oneProblem []
  have h1 := h.1 blankRow (by decide) ("A", blankCellA) (by decide)
  have h2 := h.2 rankedBlankRow (by decide)
  exact ⟨h1.1, h1.2.1, h1.2.2, h2.1, h2.2⟩

/-! ### Stable sorting commutes with filtering -/

theorem orderedInsert_of_forall_le {α : Type} (r : α → α → Prop) [DecidableRel r]
    {x : α} {l : List α} (h : ∀ b ∈ l, r x b) : List.orderedInsert r x l = x :: l := by
  cases l with
  | nil => rfl
  | cons b t => simp [List.orderedInsert, h b (List.mem_cons_self b t)]

theorem filter_orderedInsert_pos {α : Type} (r : α → α → Prop) [DecidableRel r]
    [IsTrans α r] (p : α → Bool) {x : α} {l : List α}
    (hl : List.Sorted r l) (hx : p x = true) :
    (List.orderedInsert r x l).filter p = List.orderedInsert r x (l.filter p) := by
  induction l with
  | nil => simp [List.orderedInsert, hx]
  | cons b t ih =>
    have hbt := List.sorted_cons.mp hl
    by_cases hrb : r x b
    · simp only [List.orderedInsert, if_pos hrb]
      cases hpb : p b with
      | true => simp [List.filter_cons, hx, hpb, List.orderedInsert, hrb]
      | false =>
        simp only [List.filter_cons, hx, hpb, if_true, Bool.false_eq_true, if_false]
        rw [orderedInsert_of_forall_le r]
        intro c hc
        have hc2 := List.mem_filter.mp hc
        exact Trans.trans hrb (hbt.1 c hc2.1)
    · simp only [List.orderedInsert, if_neg hrb]
      cases hpb : p b with
      | true =>
        simp only [List.filter_cons, hpb, if_true]
        rw [ih hbt.2]
        simp [List.orderedInsert, hrb]
      | false =>
        simp only [List.filter_cons, hpb, Bool.false_eq_true, if_false]
        exact ih hbt.2

theorem filter_orderedInsert_neg {α : Type} (r : α → α → Prop) [DecidableRel r]
    (p : α → Bool) {x : α} (l : List α) (hx : p x = false) :
    (List.orderedInsert r x l).filter p = l.filter p := by
  induction l with
  | nil => simp [List.orderedInsert, hx]
  | cons b t ih =>
    by_cases hrb : r x b
    · simp [List.orderedInsert, hrb, List.filter_cons, hx]
    · simp [List.orderedInsert, hrb, List.filter_cons, ih]

theorem insertionSort_filter {α : Type} (r : α → α → Prop) [DecidableRel r]
    [IsTotal α r] [IsTrans α r] (p : α → Bool) :
    ∀ l : List α, List.insertionSort r (l.filter p) = (List.insertionSort r l).filter p := by
  intro l
  induction l with
  | nil => rfl
  | cons a t ih =>
    cases hpa : p a with
    | true =>
      simp only [List.filter_cons, hpa, if_true, List.insertionSort]
      rw [ih, filter_orderedInsert_pos r p (List.sorted_insertionSort r t) hpa]
    | false =>
      simp only [List.filter_cons, hpa, Bool.false_eq_true, if_false, List.insertionSort]
      rw [ih, filter_orderedInsert_neg r p _ hpa]

/-! ### C9: submissions with unknown ids are dropped silently -/

/-- The membership test at src/data_parser.py line 48: the submission's
team id and problem id are both known. -/
def isKnown (teams : List (Int × TeamInfo)) (problems : List (String × ProbInfo))
    (s : Sub) : Bool :=
  amem s.team_id teams && amem s.prob_id problems

theorem stepStatus_not_known {teams : List (Int × TeamInfo)}
    {problems : List (String × ProbInfo)} (m : List ((Int × String) × PairStatus))
    {s : Sub} (hg : isKnown teams problems s = false) :
    stepStatus teams problems m s = m := by
  unfold isKnown at hg
  unfold stepStatus
  simp [hg]

theorem foldl_stepStatus_filter (teams : List (Int × TeamInfo))
    (problems : List (String × ProbInfo)) :
    ∀ (l : List Sub) (m : List ((Int × String) × PairStatus)),
      List.foldl (stepStatus teams problems) m (l.filter (isKnown teams problems)) =
        List.foldl (stepStatus teams problems) m l := by
  intro l
  induction l with
  | nil => intro m; rfl
  | cons e t ih =>
    intro m
    cases hg : isKnown teams problems e with
    | true => simp only [List.filter_cons, hg, if_true, List.foldl_cons]; exact ih _
    | false =>
      simp only [List.filter_cons, hg, Bool.false_eq_true, if_false, List.foldl_cons]
      rw [stepStatus_not_known m hg]
      exact ih m

theorem countAttempts_filter (teams : List (Int × TeamInfo))
    (problems : List (String × ProbInfo)) (S : List Sub) (k : Int × String)
    (hT : amem k.1 teams = true) (hP : amem k.2 problems = true) :
    countAttempts (S.filter (isKnown teams problems)) k = countAttempts S k := by
  unfold countAttempts
  induction S with
  | nil => rfl
  | cons s t ih =>
    by_cases hk : s.team_id = k.1 ∧ s.prob_id = k.2
    · have hq : isKnown teams problems s = true := by
        unfold isKnown
        rw [hk.1, hk.2, hT, hP]
        rfl
      simp [List.filter_cons, hq, List.countP_cons, hk]
      simpa using ih
    · cases hq : isKnown teams problems s with
      | true =>
        simp [List.filter_cons, hq, List.countP_cons, hk]
        simpa using ih
      | false =>
        simp [List.filter_cons, hq, List.countP_cons, hk]
        simpa using ih

/-- C9: the resolver silently drops submissions whose team id or problem id
is unknown: its full output on any submission list equals its output on the
list with all unknown-id submissions removed. -/
theorem c9_unknown_ids_dropped (teams : List (Int × TeamInfo))
    (problems : List (String × ProbInfo)) (subs : List Sub) :
    calculate_final_board_state teams problems (subs.filter (isKnown teams problems)) =
      calculate_final_board_state teams problems subs := by
  have hst : pairStatuses teams problems (subs.filter (isKnown teams problems)) =
      pairStatuses teams problems subs := by
    unfold pairStatuses sortByTime
    rw [insertionSort_filter subLe (isKnown teams problems) subs]
    exact foldl_stepStatus_filter teams problems _ []
  simp only [calculate_final_board_state, hst]
  refine congrArg _ ?_
  apply List.map_congr_left
  intro t ht
  have hT : amem t.1 teams = true := by
    rw [amem_map_fst]
    exact List.mem_map.mpr ⟨t, ht, rfl⟩
  refine congrArg _ ?_
  apply List.map_congr_left
  intro p hp
  have hp2 : p ∈ problems.map Prod.fst :=
    (List.perm_insertionSort strLe (problems.map Prod.fst)).subset hp
  have hP : amem p problems = true := amem_map_fst.mpr hp2
  rw [countAttempts_filter teams problems subs (t.1, p) hT hP]

/-! ### C4: acceptance freezes the pair state -/

theorem orderedInsert_append_mid {α : Type} (r : α → α → Prop) [DecidableRel r]
    {x s : α} (l₁ l₂ : List α) (hxs : r x s) :
    List.orderedInsert r x (l₁ ++ s :: l₂) = List.orderedInsert r x l₁ ++ s :: l₂ := by
  induction l₁ with
  | nil => simp [List.orderedInsert, hxs]
  | cons b t ih =>
    by_cases hrb : r x b
    · simp [List.orderedInsert, hrb]
    · simp only [List.cons_append, List.orderedInsert, if_neg hrb]
      exact congrArg _ ih

theorem orderedInsert_append_of_not {α : Type} (r : α → α → Prop) [DecidableRel r]
    {x : α} (l₁ l₂ : List α) (h : ∀ b ∈ l₁, ¬ r x b) :
    List.orderedInsert r x (l₁ ++ l₂) = l₁ ++ List.orderedInsert r x l₂ := by
  induction l₁ with
  | nil => rfl
  | cons b t ih =>
    simp only [List.cons_append, List.orderedInsert, if_neg (h b (List.mem_cons_self b t))]
    exact congrArg _ (ih (fun c hc => h c (List.mem_cons_of_mem _ hc)))

theorem orderedInsert_append_of_le {α : Type} (r : α → α → Prop) [DecidableRel r]
    {x : α} (l₁ l₂ : List α) (h : ∀ b ∈ l₂, r x b) :
    List.orderedInsert r x (l₁ ++ l₂) = List.orderedInsert r x l₁ ++ l₂ := by
  induction l₁ with
  | nil => simp [orderedInsert_of_forall_le r h]
  | cons b t ih =>
    by_cases hrb : r x b
    · simp [List.orderedInsert, hrb]
    · simp only [List.cons_append, List.orderedInsert, if_neg hrb]
      exact congrArg _ ih

/-- Stability of the time sort under appending one submission: the appended
element lands after every element whose time is at most its own and before
every strictly later element, and removing it gives back the sorted
original list. -/
theorem sort_append_split (S : List Sub) (s : Sub) :
    ∃ L₁ L₂ : List Sub,
      sortByTime (S ++ [s]) = L₁ ++ s :: L₂ ∧
      sortByTime S = L₁ ++ L₂ ∧
      (∀ b ∈ L₁, b.time ≤ s.time) ∧
      (∀ b ∈ L₂, s.time < b.time) := by
  induction S with
  | nil => exact ⟨[], [], rfl, rfl, by simp, by simp⟩
  | cons x t ih =>
    obtain ⟨L₁, L₂, h1, h2, hb1, hb2⟩ := ih
    by_cases hxs : x.time ≤ s.time
    · refine ⟨List.orderedInsert subLe x L₁, L₂, ?_, ?_, ?_, hb2⟩
      · show List.orderedInsert subLe x (List.insertionSort subLe (t ++ [s])) = _
        rw [show List.insertionSort subLe (t ++ [s]) = L₁ ++ s :: L₂ from h1]
        exact orderedInsert_append_mid subLe L₁ L₂ hxs
      · show List.orderedInsert subLe x (List.insertionSort subLe t) = _
        rw [show List.insertionSort subLe t = L₁ ++ L₂ from h2]
        exact orderedInsert_append_of_le subLe L₁ L₂
          (fun b hb => le_trans hxs (le_of_lt (hb2 b hb)))
      · intro b hb
        rcases List.mem_cons.mp ((List.perm_orderedInsert subLe x L₁).mem_iff.mp hb) with hb | hb
        · exact hb ▸ hxs
        · exact hb1 b hb
    · have hxs2 : s.time < x.time := lt_of_not_le hxs
      have hnot : ∀ b ∈ L₁, ¬ subLe x b :=
        fun b hb => not_le.mpr (lt_of_le_of_lt (hb1 b hb) hxs2)
      refine ⟨L₁, List.orderedInsert subLe x L₂, ?_, ?_, hb1, ?_⟩
      · show List.orderedInsert subLe x (List.insertionSort subLe (t ++ [s])) = _
        rw [show List.insertionSort subLe (t ++ [s]) = L₁ ++ s :: L₂ from h1]
        rw [orderedInsert_append_of_not subLe L₁ (s :: L₂) hnot]
        simp [List.orderedInsert, show ¬ subLe x s from not_le.mpr hxs2]
      · show List.orderedInsert subLe x (List.insertionSort subLe t) = _
        rw [show List.insertionSort subLe t = L₁ ++ L₂ from h2]
        exact orderedInsert_append_of_not subLe L₁ L₂ hnot
      · intro b hb
        rcases List.mem_cons.mp ((List.perm_orderedInsert subLe x L₂).mem_iff.mp hb) with hb | hb
        · exact hb ▸ hxs2
        · exact hb2 b hb

theorem stepStatus_lookup_accept {teams : List (Int × TeamInfo)}
    {problems : List (String × ProbInfo)} {m : List ((Int × String) × PairStatus)}
    {s : Sub} (hg : (amem s.team_id teams && amem s.prob_id problems) = true)
    (hst0 : ((alookup (s.team_id, s.prob_id) m).getD defaultStatus).is_ac = false)
    (hacc : isAccepted s = true) :
    alookup (keyOf s) (stepStatus teams problems m s) =
      some { (alookup (s.team_id, s.prob_id) m).getD defaultStatus with
             is_ac := true, solved_time := s.time,
             penalty := Int.fdiv s.time 60 +
               (((alookup (s.team_id, s.prob_id) m).getD defaultStatus).attempts_before_ac : Int) *
                 ((alookup s.prob_id problems).getD ⟨"", 0⟩).penalty_time,
             effective_last_sub_time := s.time } := by
  unfold stepStatus keyOf
  simp only [hg, if_true, hst0, Bool.false_eq_true, if_false, hacc]
  exact alookup_aset_self _ _ m

theorem stepStatus_lookup_reject {teams : List (Int × TeamInfo)}
    {problems : List (String × ProbInfo)} {m : List ((Int × String) × PairStatus)}
    {s : Sub} (hg : (amem s.team_id teams && amem s.prob_id problems) = true)
    (hst0 : ((alookup (s.team_id, s.prob_id) m).getD defaultStatus).is_ac = false)
    (hacc : isAccepted s = false) :
    alookup (keyOf s) (stepStatus teams problems m s) =
      some { (alookup (s.team_id, s.prob_id) m).getD defaultStatus with
             attempts_before_ac :=
               ((alookup (s.team_id, s.prob_id) m).getD defaultStatus).attempts_before_ac + 1,
             effective_last_sub_time := s.time } := by
  unfold stepStatus keyOf
  simp only [hg, if_true, hst0, Bool.false_eq_true, if_false, hacc]
  exact alookup_aset_self _ _ m

/-- When a pair is not yet accepted before a stretch of the loop and is
accepted after it, the stretch contains an actual submission of that pair
whose time is the recorded solve time. -/
theorem fold_ac_origin (teams : List (Int × TeamInfo))
    (problems : List (String × ProbInfo)) :
    ∀ (l : List Sub) (m : List ((Int × String) × PairStatus)) (k : Int × String)
      (st : PairStatus),
      (∀ s0, alookup k m = some s0 → s0.is_ac = false) →
      alookup k (List.foldl (stepStatus teams problems) m l) = some st →
      st.is_ac = true →
      ∃ e ∈ l, keyOf e = k ∧ e.time = st.solved_time := by
  intro l
  induction l with
  | nil =>
    intro m k st hna hlook hac
    exact absurd hac (by simp [hna st (by simpa using hlook)])
  | cons e t ih =>
    intro m k st hna hlook hac
    simp only [List.foldl_cons] at hlook
    by_cases hk : keyOf e = k
    · by_cases hg : (amem e.team_id teams && amem e.prob_id problems) = true
      · have hst0 : ((alookup (e.team_id, e.prob_id) m).getD defaultStatus).is_ac = false := by
          cases hal : alookup (e.team_id, e.prob_id) m with
          | none => rfl
          | some s0 =>
            exact hna s0 (by rw [show (e.team_id, e.prob_id) = k from hk] at hal; exact hal)
        cases hacc : isAccepted e with
        | true =>
          have hsome := stepStatus_lookup_accept (m := m) (s := e) hg hst0 hacc
          rw [hk] at hsome
          have hfro := fold_frozen teams problems t _ hsome rfl
          rw [hfro] at hlook
          injection hlook with hst
          exact ⟨e, List.mem_cons_self e t, hk, by rw [← hst]⟩
        | false =>
          have hsome := stepStatus_lookup_reject (m := m) (s := e) hg hst0 hacc
          rw [hk] at hsome
          obtain ⟨e2, he2, hk2, ht2⟩ := ih (stepStatus teams problems m e) k st
            (fun s0 h0 => by
              rw [hsome] at h0
              injection h0 with h0
              rw [← h0]
              exact hst0) hlook hac
          exact ⟨e2, List.mem_cons_of_mem _ he2, hk2, ht2⟩
      · rw [stepStatus_not_known m (by unfold isKnown; simpa using hg)] at hlook
        obtain ⟨e2, he2, hk2, ht2⟩ := ih m k st hna hlook hac
        exact ⟨e2, List.mem_cons_of_mem _ he2, hk2, ht2⟩
    · have hne : alookup k (stepStatus teams problems m e) = alookup k m :=
        stepStatus_lookup_ne teams problems m e hk
      obtain ⟨e2, he2, hk2, ht2⟩ := ih _ k st (fun s0 h0 => hna s0 (hne ▸ h0)) hlook hac
      exact ⟨e2, List.mem_cons_of_mem _ he2, hk2, ht2⟩

/-- C4: once a pair is accepted at its recorded solve time, appending to the
log any further submission of that pair with a strictly later time leaves
the entire resolver accumulator map, in particular that pair's accepted
flag, solve time, rejection count and penalty, unchanged. -/
theorem c4_acceptance_freezes (teams : List (Int × TeamInfo))
    (problems : List (String × ProbInfo)) (S : List Sub) (s : Sub)
    (T : Int) (P : String) (st : PairStatus)
    (hlook : alookup (T, P) (pairStatuses teams problems S) = some st)
    (hac : st.is_ac = true)
    (hteam : s.team_id = T) (hprob : s.prob_id = P)
    (htime : st.solved_time < s.time) :
    pairStatuses teams problems (S ++ [s]) = pairStatuses teams problems S := by
  obtain ⟨L₁, L₂, h1, h2, _hb1, hb2⟩ := sort_append_split S s
  unfold pairStatuses
  unfold pairStatuses at hlook
  rw [show sortByTime (S ++ [s]) = L₁ ++ s :: L₂ from h1,
      show sortByTime S = L₁ ++ L₂ from h2]
  rw [show sortByTime S = L₁ ++ L₂ from h2] at hlook
  rw [List.foldl_append] at hlook ⊢
  rw [List.foldl_append, List.foldl_cons]
  have hm1 : ∃ st1, alookup (T, P)
      (List.foldl (stepStatus teams problems) [] L₁) = some st1 ∧ st1.is_ac = true := by
    by_cases hcon : ∀ s0, alookup (T, P)
        (List.foldl (stepStatus teams problems) [] L₁) = some s0 → s0.is_ac = false
    · obtain ⟨e, heL2, hek, het⟩ :=
        fold_ac_origin teams problems L₂ _ (T, P) st hcon hlook hac
      have h3 := hb2 e heL2
      omega
    · push_neg at hcon
      obtain ⟨s0, h0, h0ac⟩ := hcon
      exact ⟨s0, h0, by simpa using h0ac⟩
  obtain ⟨st1, h5, h6⟩ := hm1
  rw [stepStatus_frozen teams problems _ s
    (by unfold keyOf; rw [hteam, hprob]; exact h5) h6]

/-- Closed instantiation of C4: team 1 accepts A at 100 s; appending a
rejection of the same pair at 150 s leaves the accumulator map unchanged. -/
theorem c4_witness :
    pairStatuses oneTeam oneProblem
        ([⟨1, "A", 100, "OK"⟩] ++ [⟨1, "A", 150, "RJ"⟩]) =
      pairStatuses oneTeam oneProblem [⟨1, "A", 100, "OK"⟩] :=
  c4_acceptance_freezes oneTeam oneProblem [⟨1, "A", 100, "OK"⟩] ⟨1, "A", 150, "RJ"⟩
    1 "A" ⟨0, true, 100, 1, 100⟩ (by decide) rfl rfl rfl (by decide)

/-! ### C8: the resolver sorts its submissions argument in place -/

/-- The value held by the caller's submissions list object after
`calculate_final_board_state` returns: the in-place
`submissions.sort(key=lambda x: x['time'])` at src/data_parser.py line 35
reorders the caller's list by time before anything else runs. -/
def submissionsAfterResolve (submissions : List Sub) : List Sub :=
  sortByTime submissions

/-- Refutation of the no-mutation part of C8 at a concrete input: on a
submission list that is not already time-sorted, the list object the caller
passed in holds a different (reordered) value after the call. -/
theorem c8_counterexample :
    submissionsAfterResolve [⟨1, "A", 5, "OK"⟩, ⟨1, "A", 2, "RJ"⟩] ≠
      [⟨1, "A", 5, "OK"⟩, ⟨1, "A", 2, "RJ"⟩] := by decide

/-- C8 as amended: the resolver is deterministic and reads only its three
inputs, but it mutates the submissions argument by sorting it in place;
its output is invariant under that pre-sorting, so a second call on the
mutated list still returns identical output and leaves the list unchanged. -/
theorem c8_amended_second_call_identical (teams : List (Int × TeamInfo))
    (problems : List (String × ProbInfo)) (subs : List Sub) :
    calculate_final_board_state teams problems (submissionsAfterResolve subs) =
      calculate_final_board_state teams problems subs ∧
    submissionsAfterResolve (submissionsAfterResolve subs) =
      submissionsAfterResolve subs := by
  have hsort : sortByTime (sortByTime subs) = sortByTime subs :=
    List.Sorted.insertionSort_eq (List.sorted_insertionSort subLe subs)
  constructor
  · have hst : pairStatuses teams problems (submissionsAfterResolve subs) =
        pairStatuses teams problems subs := by
      unfold pairStatuses submissionsAfterResolve
      rw [hsort]
    have hcnt : ∀ k, countAttempts (submissionsAfterResolve subs) k = countAttempts subs k := by
      intro k
      unfold countAttempts submissionsAfterResolve sortByTime
      exact (List.perm_insertionSort subLe subs).countP_eq _
    simp only [calculate_final_board_state, hst]
    refine congrArg _ ?_
    apply List.map_congr_left
    intro t _
    refine congrArg _ ?_
    apply List.map_congr_left
    intro p _
    rw [hcnt (t.1, p)]
  · exact hsort

/-! ### C7: ranking -/

/-- The sort key of a row in the comparisons of the rank-assignment loop:
solved count (as an integer, matching the comparison against the -1
sentinel) and penalty. -/
def rowKeyI (r : Row) : Int × Int := ((r.solved : Int), r.penalty)

theorem rankRows_length : ∀ (l : List Row) (i rk : Nat) (ls lp : Int),
    (rankRows i rk ls lp l).length = l.length := by
  intro l
  induction l with
  | nil => intro i rk ls lp; rfl
  | cons r t ih => intro i rk ls lp; simp [rankRows, ih]

theorem rankRows_getElem?_core : ∀ (l : List Row) (i rk : Nat) (ls lp : Int) (j : Nat),
    ((rankRows i rk ls lp l)[j]?).map
        (fun r => (r.solved, r.penalty, r.team_id, r.team, r.status)) =
      (l[j]?).map (fun r => (r.solved, r.penalty, r.team_id, r.team, r.status)) := by
  intro l
  induction l with
  | nil => intro i rk ls lp j; rfl
  | cons r t ih =>
    intro i rk ls lp j
    cases j with
    | zero => simp [rankRows]
    | succ j =>
      simp only [rankRows, List.getElem?_cons_succ]
      exact ih _ _ _ _ j

theorem rankRows_getElem?_zero (i rk : Nat) (ls lp : Int) (r : Row) (t : List Row) :
    ((rankRows i rk ls lp (r :: t))[0]?).map Row.rank =
      some (if (r.solved : Int) ≠ ls ∨ r.penalty ≠ lp then i + 1 else rk) := by
  simp [rankRows]

theorem rankRows_rank_succ : ∀ (l : List Row) (i rk : Nat) (ls lp : Int) (j : Nat)
    (r1 r2 R1 R2 : Row),
    l[j]? = some r1 → l[j + 1]? = some r2 →
    (rankRows i rk ls lp l)[j]? = some R1 →
    (rankRows i rk ls lp l)[j + 1]? = some R2 →
    R2.rank = if (r2.solved : Int) ≠ (r1.solved : Int) ∨ r2.penalty ≠ r1.penalty
      then i + j + 2 else R1.rank := by
  intro l
  induction l with
  | nil => intro i rk ls lp j r1 r2 R1 R2 h1; simp at h1
  | cons r t ih =>
    intro i rk ls lp j r1 r2 R1 R2 h1 h2 h3 h4
    cases j with
    | zero =>
      cases t with
      | nil => simp at h2
      | cons s t2 =>
        simp only [List.getElem?_cons_zero, List.getElem?_cons_succ, Option.some.injEq] at h1 h2
        simp only [rankRows, List.getElem?_cons_zero, List.getElem?_cons_succ,
          Option.some.injEq] at h3 h4
        subst h1
        subst h2
        rw [← h3, ← h4]
    | succ j =>
      simp only [List.getElem?_cons_succ] at h1 h2
      simp only [rankRows, List.getElem?_cons_succ] at h3 h4
      have := ih (i + 1) _ _ _ j r1 r2 R1 R2 h1 h2 h3 h4
      rw [this]
      have harith : i + 1 + j + 2 = i + (j + 1) + 2 := by omega
      rw [harith]

theorem rankRows_core_eq (s : List Row) (j : Nat) (R : Row)
    (h : (rankRows 0 0 (-1) (-1) s)[j]? = some R) :
    ∃ hj : j < s.length,
      R.solved = (s.get ⟨j, hj⟩).solved ∧ R.penalty = (s.get ⟨j, hj⟩).penalty := by
  have hb : j < (rankRows 0 0 (-1) (-1) s).length := (List.getElem?_eq_some_iff.mp h).1
  have hj : j < s.length := by rw [← rankRows_length s 0 0 (-1) (-1)]; exact hb
  have hcore := rankRows_getElem?_core s 0 0 (-1) (-1) j
  rw [h, List.getElem?_eq_getElem hj] at hcore
  injection hcore with hcore
  simp only [Prod.mk.injEq] at hcore
  exact ⟨hj, by rw [hcore.1, List.get_eq_getElem], by rw [hcore.2.1, List.get_eq_getElem]⟩

theorem rankRows_rank_zero (s : List Row) (R : Row)
    (h : (rankRows 0 0 (-1) (-1) s)[0]? = some R) : R.rank = 1 := by
  cases s with
  | nil => simp [rankRows] at h
  | cons r t =>
    have h5 := rankRows_getElem?_zero 0 0 (-1) (-1) r t
    rw [h] at h5
    have h6 : R.rank = if (r.solved : Int) ≠ -1 ∨ r.penalty ≠ -1 then 0 + 1 else 0 := by
      injection h5
    rw [h6, if_pos]
    left
    omega

theorem rankRows_rank_succ_L (s : List Row) (j : Nat) (R1 R2 : Row)
    (h1 : (rankRows 0 0 (-1) (-1) s)[j]? = some R1)
    (h2 : (rankRows 0 0 (-1) (-1) s)[j + 1]? = some R2) :
    R2.rank = if rowKeyI R2 ≠ rowKeyI R1 then j + 2 else R1.rank := by
  obtain ⟨hj1, hs1, hp1⟩ := rankRows_core_eq s j R1 h1
  obtain ⟨hj2, hs2, hp2⟩ := rankRows_core_eq s (j + 1) R2 h2
  have hmain := rankRows_rank_succ s 0 0 (-1) (-1) j (s.get ⟨j, hj1⟩) (s.get ⟨j + 1, hj2⟩)
    R1 R2 (by rw [List.get_eq_getElem]; exact List.getElem?_eq_getElem hj1)
    (by rw [List.get_eq_getElem]; exact List.getElem?_eq_getElem hj2) h1 h2
  have hiff : (rowKeyI R2 ≠ rowKeyI R1) ↔
      (((s.get ⟨j + 1, hj2⟩).solved : Int) ≠ ((s.get ⟨j, hj1⟩).solved : Int) ∨
        (s.get ⟨j + 1, hj2⟩).penalty ≠ (s.get ⟨j, hj1⟩).penalty) := by
    unfold rowKeyI
    rw [hs1, hp1, hs2, hp2]
    constructor
    · intro hne
      by_contra hcon
      push_neg at hcon
      exact hne (by rw [hcon.1, hcon.2])
    · intro hor heq
      have h6 := Prod.mk.injEq _ _ _ _ ▸ heq
      rcases hor with h7 | h7
      · exact h7 (congrArg Prod.fst heq)
      · exact h7 (congrArg Prod.snd heq)
  rw [hmain, if_congr hiff rfl rfl]
  by_cases hc : (((s.get ⟨j + 1, hj2⟩).solved : Int) ≠ ((s.get ⟨j, hj1⟩).solved : Int) ∨
      (s.get ⟨j + 1, hj2⟩).penalty ≠ (s.get ⟨j, hj1⟩).penalty)
  · rw [if_pos hc, if_pos hc]
    omega
  · rw [if_neg hc, if_neg hc]

theorem rankRows_rank_le (s : List Row) : ∀ (j : Nat) (R : Row),
    (rankRows 0 0 (-1) (-1) s)[j]? = some R → R.rank ≤ j + 1 := by
  intro j
  induction j with
  | zero =>
    intro R h
    rw [rankRows_rank_zero s R h]
  | succ j ihj =>
    intro R h
    have hb : j + 1 < (rankRows 0 0 (-1) (-1) s).length := (List.getElem?_eq_some_iff.mp h).1
    have hbj : j < (rankRows 0 0 (-1) (-1) s).length := by omega
    have hsome : (rankRows 0 0 (-1) (-1) s)[j]? =
        some ((rankRows 0 0 (-1) (-1) s).get ⟨j, hbj⟩) := by
      rw [List.get_eq_getElem]
      exact List.getElem?_eq_getElem hbj
    have hstep := rankRows_rank_succ_L s j _ R hsome h
    have hle := ihj _ hsome
    rw [hstep]
    by_cases hc : rowKeyI R ≠ rowKeyI ((rankRows 0 0 (-1) (-1) s).get ⟨j, hbj⟩)
    · rw [if_pos hc]
    · rw [if_neg hc]
      omega

theorem rankRows_rank_mono (s : List Row) : ∀ (j i : Nat), i ≤ j → ∀ (R1 R2 : Row),
    (rankRows 0 0 (-1) (-1) s)[i]? = some R1 →
    (rankRows 0 0 (-1) (-1) s)[j]? = some R2 → R1.rank ≤ R2.rank := by
  intro j
  induction j with
  | zero =>
    intro i hij R1 R2 h1 h2
    have : i = 0 := by omega
    subst this
    rw [h1] at h2
    injection h2 with h2
    rw [h2]
  | succ j ihj =>
    intro i hij R1 R2 h1 h2
    rcases Nat.lt_succ_iff_lt_or_eq.mp (Nat.lt_succ_of_le hij) with h | h
    · have hb : j + 1 < (rankRows 0 0 (-1) (-1) s).length := (List.getElem?_eq_some_iff.mp h2).1
      have hbj : j < (rankRows 0 0 (-1) (-1) s).length := by omega
      have hsome : (rankRows 0 0 (-1) (-1) s)[j]? =
          some ((rankRows 0 0 (-1) (-1) s).get ⟨j, hbj⟩) := by
        rw [List.get_eq_getElem]
        exact List.getElem?_eq_getElem hbj
      have hstep := rankRows_rank_succ_L s j _ R2 hsome h2
      have hmid := ihj i (by omega) R1 _ h1 hsome
      have hlem := rankRows_rank_le s j _ hsome
      rw [hstep]
      by_cases hc : rowKeyI R2 ≠ rowKeyI ((rankRows 0 0 (-1) (-1) s).get ⟨j, hbj⟩)
      · rw [if_pos hc]
        omega
      · rw [if_neg hc]
        exact hmid
    · subst h
      rw [h1] at h2
      injection h2 with h2
      rw [h2]

theorem rankRows_key_boundary (s : List Row) : ∀ (j i : Nat), i ≤ j → ∀ (Ri Rj : Row),
    (rankRows 0 0 (-1) (-1) s)[i]? = some Ri →
    (rankRows 0 0 (-1) (-1) s)[j]? = some Rj →
    rowKeyI Ri ≠ rowKeyI Rj →
    ∃ (k : Nat) (Rk : Row), i ≤ k ∧ k + 1 ≤ j ∧
      (rankRows 0 0 (-1) (-1) s)[k + 1]? = some Rk ∧ Rk.rank = k + 2 := by
  intro j
  induction j with
  | zero =>
    intro i hij Ri Rj h1 h2 hne
    have : i = 0 := by omega
    subst this
    rw [h1] at h2
    injection h2 with h2
    exact absurd (h2 ▸ rfl) hne
  | succ j ihj =>
    intro i hij Ri Rj h1 h2 hne
    have hine : i ≠ j + 1 := by
      intro heq
      subst heq
      rw [h1] at h2
      injection h2 with h2
      exact hne (h2 ▸ rfl)
    have hile : i ≤ j := by omega
    have hb : j + 1 < (rankRows 0 0 (-1) (-1) s).length := (List.getElem?_eq_some_iff.mp h2).1
    have hbj : j < (rankRows 0 0 (-1) (-1) s).length := by omega
    have hsome : (rankRows 0 0 (-1) (-1) s)[j]? =
        some ((rankRows 0 0 (-1) (-1) s).get ⟨j, hbj⟩) := by
      rw [List.get_eq_getElem]
      exact List.getElem?_eq_getElem hbj
    by_cases hc : rowKeyI Rj ≠ rowKeyI ((rankRows 0 0 (-1) (-1) s).get ⟨j, hbj⟩)
    · refine ⟨j, Rj, hile, le_refl _, h2, ?_⟩
      have hstep := rankRows_rank_succ_L s j _ Rj hsome h2
      rw [hstep, if_pos hc]
    · push_neg at hc
      have hne2 : rowKeyI Ri ≠ rowKeyI ((rankRows 0 0 (-1) (-1) s).get ⟨j, hbj⟩) := by
        rw [← hc]
        exact hne
      obtain ⟨k, Rk, hk1, hk2, hk3, hk4⟩ := ihj i hile Ri _ h1 hsome hne2
      exact ⟨k, Rk, hk1, by omega, hk3, hk4⟩

/-- C7: in the board produced by `recalculate_board`, rows are sorted by
solved count descending then penalty ascending; the first row has rank 1;
two adjacent rows with equal (solved, penalty) share the rank; an adjacent
row opening a new (solved, penalty) group gets rank equal to its 1-based
row index; and a row with strictly more solved problems than another always
has a strictly smaller rank number. -/
theorem c7_ranking (board : List Row) (i j : Nat) (Ri Rj : Row)
    (hi : (recalculate_board board)[i]? = some Ri)
    (hj : (recalculate_board board)[j]? = some Rj) :
    (i < j → rowLe Ri Rj) ∧
    (i = 0 → Ri.rank = 1) ∧
    (j = i + 1 → rowKeyI Ri = rowKeyI Rj → Rj.rank = Ri.rank) ∧
    (j = i + 1 → rowKeyI Ri ≠ rowKeyI Rj → Rj.rank = i + 2) ∧
    (Rj.solved < Ri.solved → Ri.rank < Rj.rank) := by
  unfold recalculate_board at hi hj
  set s := List.insertionSort rowLe (board.map recomputeRow) with hs
  have hsorted : List.Sorted rowLe s := List.sorted_insertionSort rowLe (board.map recomputeRow)
  have horder : ∀ (a b : Nat) (Ra Rb : Row), a < b →
      (rankRows 0 0 (-1) (-1) s)[a]? = some Ra →
      (rankRows 0 0 (-1) (-1) s)[b]? = some Rb → rowLe Ra Rb := by
    intro a b Ra Rb hab ha hb
    obtain ⟨ha2, hsa, hpa⟩ := rankRows_core_eq s a Ra ha
    obtain ⟨hb2, hsb, hpb⟩ := rankRows_core_eq s b Rb hb
    have := List.pairwise_iff_getElem.mp hsorted a b ha2 hb2 hab
    unfold rowLe at this ⊢
    rw [hsa, hpa, hsb, hpb]
    simpa using this
  refine ⟨fun hij => horder i j Ri Rj hij hi hj, ?_, ?_, ?_, ?_⟩
  · intro h0
    subst h0
    exact rankRows_rank_zero s Ri hi
  · intro hsucc heq
    subst hsucc
    rw [rankRows_rank_succ_L s i Ri Rj hi hj, if_neg (by simpa using heq.symm)]
  · intro hsucc hne
    subst hsucc
    rw [rankRows_rank_succ_L s i Ri Rj hi hj, if_pos (fun hc => hne hc.symm)]
  · intro hsolved
    have hij : i < j := by
      rcases lt_trichotomy i j with h | h | h
      · exact h
      · subst h
        rw [hi] at hj
        injection hj with hj
        rw [hj] at hsolved
        omega
      · have := horder j i Rj Ri h hj hi
        unfold rowLe at this
        omega
    have hne : rowKeyI Ri ≠ rowKeyI Rj := by
      intro heq
      have := congrArg Prod.fst heq
      unfold rowKeyI at this
      simp only at this
      omega
    obtain ⟨k, Rk, hik, hkj, hk3, hk4⟩ :=
      rankRows_key_boundary s j i (le_of_lt hij) Ri Rj hi hj hne
    have hmono := rankRows_rank_mono s j (k + 1) hkj Rk Rj hk3 hj
    have hle := rankRows_rank_le s i Ri hi
    omega

/-- Concrete cell shown as solved with penalty 7, for the ranking witness. -/
def c7CellPlus : Cell := ⟨"+", 3, 7, -1, true, 200, 7, 1, 200, 1⟩

/-- Concrete two-row board for the ranking witness. -/
def c7Board : List Row :=
  [⟨1, 0, "T1", 0, 0, [("A", c7CellPlus)]⟩, ⟨2, 0, "T2", 0, 0, [("A", blankCellA)]⟩]

/-- Row of team 1 after recalculation: one solve, penalty 7, rank 1. -/
def c7Row1 : Row := ⟨1, 1, "T1", 1, 7, [("A", c7CellPlus)]⟩

/-- Row of team 2 after recalculation: no solves, rank 2. -/
def c7Row2 : Row := ⟨2, 2, "T2", 0, 0, [("A", blankCellA)]⟩

/-- Closed instantiation of C7 on the concrete board: the two ranked rows
satisfy every clause of the ranking contract. -/
theorem c7_witness :
    ((0 : Nat) < 1 → rowLe c7Row1 c7Row2) ∧
    ((0 : Nat) = 0 → c7Row1.rank = 1) ∧
    ((1 : Nat) = 0 + 1 → rowKeyI c7Row1 = rowKeyI c7Row2 → c7Row2.rank = c7Row1.rank) ∧
    ((1 : Nat) = 0 + 1 → rowKeyI c7Row1 ≠ rowKeyI c7Row2 → c7Row2.rank = 0 + 2) ∧
    (c7Row2.solved < c7Row1.solved → c7Row1.rank < c7Row2.rank) :=
  c7_ranking c7Board 0 1 c7Row1 c7Row2 (by decide) (by decide)

/-! ### Decimal display strings round-trip through the parse in update_submission -/

theorem digitChar_toNat {d : Nat} (hd : d < 10) : (digitChar d).toNat = 48 + d := by
  unfold digitChar
  interval_cases d <;> rfl

theorem natDigitsAux_bounds : ∀ (fuel n : Nat), n < fuel →
    ∀ c ∈ natDigitsAux fuel n, 48 ≤ c.toNat ∧ c.toNat ≤ 57 := by
  intro fuel
  induction fuel with
  | zero => intro n hn; omega
  | succ fuel ih =>
    intro n hn c hc
    by_cases h : n < 10
    · rw [natDigitsAux, if_pos h] at hc
      simp only [List.mem_singleton] at hc
      subst hc
      rw [digitChar_toNat h]
      omega
    · rw [natDigitsAux, if_neg h] at hc
      rcases List.mem_append.mp hc with hc | hc
      · have hlt : n / 10 < fuel := by
          have := Nat.div_lt_self (show 0 < n by omega) (show 1 < 10 by omega)
          omega
        exact ih (n / 10) hlt c hc
      · simp only [List.mem_singleton] at hc
        subst hc
        rw [digitChar_toNat (Nat.mod_lt n (by omega))]
        have := Nat.mod_lt n (show 0 < 10 by omega)
        omega

theorem natDigits_bounds : ∀ n : Nat, ∀ c ∈ natDigits n, 48 ≤ c.toNat ∧ c.toNat ≤ 57 :=
  fun n => natDigitsAux_bounds (n + 1) n (Nat.lt_succ_self n)

theorem digitsToNat_natDigitsAux : ∀ (fuel n : Nat), n < fuel →
    (natDigitsAux fuel n).foldl (fun m c => m * 10 + (c.toNat - 48)) 0 = n := by
  intro fuel
  induction fuel with
  | zero => intro n hn; omega
  | succ fuel ih =>
    intro n hn
    by_cases h : n < 10
    · rw [natDigitsAux, if_pos h]
      simp only [List.foldl_cons, List.foldl_nil]
      rw [digitChar_toNat h]
      omega
    · rw [natDigitsAux, if_neg h, List.foldl_append]
      have hlt : n / 10 < fuel := by
        have := Nat.div_lt_self (show 0 < n by omega) (show 1 < 10 by omega)
        omega
      rw [ih (n / 10) hlt]
      simp only [List.foldl_cons, List.foldl_nil]
      rw [digitChar_toNat (Nat.mod_lt n (by omega))]
      have h2 := Nat.div_add_mod n 10
      have h3 := Nat.mod_lt n (show 0 < 10 by omega)
      omega

theorem digitsToNat_natRepr (n : Nat) : digitsToNat (natRepr n) = n :=
  digitsToNat_natDigitsAux (n + 1) n (Nat.lt_succ_self n)

theorem charList_contains_eq_false {l : List Char} {c : Char} (h : ∀ x ∈ l, x ≠ c) :
    l.contains c = false := by
  induction l with
  | nil => rfl
  | cons a t ih =>
    rw [List.contains_cons]
    have ha : (c == a) = false := by
      have h2 := h a (List.mem_cons_self a t)
      simp only [beq_eq_false_iff_ne, ne_eq]
      exact fun hh => h2 hh.symm
    rw [ha, Bool.false_or]
    exact ih (fun x hx => h x (List.mem_cons_of_mem _ hx))

theorem minus_natRepr_data (k : Nat) : ("-" ++ natRepr k).data = Char.ofNat 45 :: natDigits k := by
  rw [String.data_append]
  rfl

theorem containsChar_minus_natRepr_plus (k : Nat) :
    containsChar ("-" ++ natRepr k) '+' = false := by
  unfold containsChar
  rw [minus_natRepr_data]
  apply charList_contains_eq_false
  intro x hx
  rcases List.mem_cons.mp hx with hx | hx
  · subst hx
    intro hcon
    exact absurd (congrArg Char.toNat hcon) (by decide)
  · have := natDigits_bounds k x hx
    intro hcon
    have h2 := congrArg Char.toNat hcon
    have h3 : ('+' : Char).toNat = 43 := by decide
    rw [h3] at h2
    omega

theorem minus_natRepr_ne_empty (k : Nat) : ("-" ++ natRepr k) ≠ "" := by
  intro hcon
  have := congrArg String.data hcon
  rw [minus_natRepr_data] at this
  simp at this

theorem stripChar_minus_natRepr (k : Nat) : stripChar ("-" ++ natRepr k) '-' = natRepr k := by
  unfold stripChar
  rw [minus_natRepr_data]
  have h1 : (Char.ofNat 45 :: natDigits k).filter (fun x => x ≠ Char.ofNat 45) =
      (natDigits k).filter (fun x => x ≠ Char.ofNat 45) := by
    rw [List.filter_cons]
    simp
  have h2 : (natDigits k).filter (fun x => x ≠ Char.ofNat 45) = natDigits k := by
    apply List.filter_eq_self.mpr
    intro x hx
    have hb := natDigits_bounds k x hx
    simp only [ne_eq, decide_eq_true_eq]
    intro hcon
    have h3 := congrArg Char.toNat hcon
    have h4 : Char.toNat (Char.ofNat 45) = 45 := by decide
    omega
  show String.mk ((Char.ofNat 45 :: natDigits k).filter (fun x => x ≠ Char.ofNat 45)) = _
  rw [h1, h2]
  rfl

/-! ### C6: the operator AC injection -/

/-- Concrete problem configuration for C6: problem A is configured with
penalty-per-wrong-attempt 30 (not 20). -/
def c6Problems : List (String × ProbInfo) := [("A", ⟨"A", 30⟩)]

/-- Concrete cell with one rejected attempt shown, for C6. -/
def c6CellBefore : Cell := ⟨"-1", 0, 0, -1, false, -1, 0, 1, 60, 1⟩

/-- Concrete one-team board whose cell for A shows one rejection. -/
def c6Board : List Row := [⟨1, 0, "T1", 0, 0, [("A", c6CellBefore)]⟩]

/-- Refutation of C6 at a concrete input: problem A is configured with
penalty 30, the cell shows one rejection, and the operator injects AC at
minute 10.  The claim predicts solved time 600 elapsed seconds (minute
times 60) and penalty 10 + 1 times 30 = 40; the code stores solved time 10
(the raw minute value) and penalty 10 + 1 times 20 = 30, ignoring the
configured penalty. -/
theorem c6_counterexample :
    probPenalty c6Problems "A" = 30 ∧
    (update_submission c6Board ⟨1, "A", "AC", 10⟩).map
        (fun r => (alookup "A" r.status).map (fun c => (c.solved_time, c.penalty))) =
      [some (10, 30)] ∧
    ¬ ((10 : Int) + 1 * probPenalty c6Problems "A" = 30) ∧ ¬ ((10 : Int) * 60 = 10) := by
  refine ⟨by decide, by decide, by decide, by decide⟩

theorem mem_aset {κ ν : Type} [DecidableEq κ] {x : κ × ν} {k : κ} {v : ν} :
    ∀ {l : List (κ × ν)}, x ∈ aset k v l → x ∈ l ∨ x = (k, v) := by
  intro l
  induction l with
  | nil => intro h; simp [aset] at h; exact Or.inr h
  | cons e t ih =>
    intro h
    unfold aset at h
    by_cases he : e.1 = k
    · rw [if_pos he] at h
      rcases List.mem_cons.mp h with h | h
      · exact Or.inr h
      · exact Or.inl (List.mem_cons_of_mem _ h)
    · rw [if_neg he] at h
      rcases List.mem_cons.mp h with h | h
      · exact Or.inl (h ▸ List.mem_cons_self e t)
      · rcases ih h with h | h
        · exact Or.inl (List.mem_cons_of_mem _ h)
        · exact Or.inr h

theorem findAndApply_mem : ∀ (board : List Row) (f : UpdateForm) (r : Row),
    r ∈ findAndApply board f →
    r ∈ board ∨ ∃ r0 ∈ board, r0.team_id = f.team_id ∧ r = applyToRow r0 f := by
  intro board f
  induction board with
  | nil => intro r hr; simp [findAndApply] at hr
  | cons b t ih =>
    intro r hr
    unfold findAndApply at hr
    by_cases hb : b.team_id = f.team_id
    · rw [if_pos hb] at hr
      rcases List.mem_cons.mp hr with hr | hr
      · exact Or.inr ⟨b, List.mem_cons_self b t, hb, hr⟩
      · exact Or.inl (List.mem_cons_of_mem _ hr)
    · rw [if_neg hb] at hr
      rcases List.mem_cons.mp hr with hr | hr
      · exact Or.inl (hr ▸ List.mem_cons_self b t)
      · rcases ih r hr with h | ⟨r0, h1, h2, h3⟩
        · exact Or.inl (List.mem_cons_of_mem _ h)
        · exact Or.inr ⟨r0, List.mem_cons_of_mem _ h1, h2, h3⟩

/-- C6 as amended: on an AC injection for a cell without a plus, the code
stores the raw minute value into the cell's solved time (no conversion to
seconds) and sets penalty = minute + attempts times 20, with 20 hardcoded
regardless of the penalty configured for the problem; the mutation routes
exactly the targeted cell of the first matching team through this update,
leaving every other cell of that row untouched. -/
theorem c6_amended_hardcoded_penalty :
    (∀ (c : Cell) (f : UpdateForm) (k : Nat),
      f.result = "AC" →
      ((c.display = "" ∧ k = 0) ∨ c.display = "-" ++ natRepr k) →
      (updateCell c f).solved_time = f.solved_time_min ∧
      (updateCell c f).penalty = f.solved_time_min + (k : Int) * 20 ∧
      (updateCell c f).display = "+" ++ (if k > 0 then natRepr k else "")) ∧
    (∀ (board : List Row) (f : UpdateForm) (r : Row), r ∈ update_submission board f →
      ∃ r0 ∈ board, r0.team_id = r.team_id ∧
        (r.status = r0.status ∨ ∃ c0, alookup f.problem_id r0.status = some c0 ∧
          r.status = aset f.problem_id (updateCell c0 f) r0.status)) := by
  constructor
  · intro c f k hf hd
    unfold updateCell
    rw [if_pos hf]
    rcases hd with ⟨hd, hk⟩ | hd
    · subst hk
      rw [hd]
      have hcont : containsChar "" '+' = false := rfl
      rw [hcont]
      simp
    · rw [hd, containsChar_minus_natRepr_plus k]
      simp only [Bool.not_false, if_true]
      have hne : ("-" ++ natRepr k) ≠ "" := minus_natRepr_ne_empty k
      rw [if_pos hne, stripChar_minus_natRepr k, digitsToNat_natRepr k]
      exact ⟨trivial, rfl, rfl⟩
  · intro board f r hr
    obtain ⟨y, hy, hry⟩ := recalculate_board_mem hr
    have hstat : r.status = y.status := by rw [hry]; exact rfl
    have hteam : r.team_id = y.team_id := by rw [hry]; exact rfl
    rcases findAndApply_mem board f y hy with hy2 | ⟨r0, hr0, hteam0, hy2⟩
    · exact ⟨y, hy2, hteam.symm, Or.inl hstat⟩
    · unfold applyToRow at hy2
      cases hal : alookup f.problem_id r0.status with
      | none =>
        rw [hal] at hy2
        exact ⟨r0, hr0, by rw [hteam, hy2], Or.inl (by rw [hstat, hy2])⟩
      | some c0 =>
        rw [hal] at hy2
        refine ⟨r0, hr0, by rw [hteam, hy2], Or.inr ⟨c0, hal, by rw [hstat, hy2]⟩⟩

/-- The row of `c6Board` after the AC injection at minute 10 and
re-ranking. -/
def c6RowAfter : Row :=
  ⟨1, 1, "T1", 1, 30, [("A", ⟨"+1", 10, 30, -1, false, -1, 0, 1, 60, 1⟩)]⟩

/-- Closed instantiation of the amended C6: the cell update at minute 10
with one prior rejection, and the routing of the mutation through the
board of `c6Board`. -/
theorem c6_witness :
    ((updateCell c6CellBefore ⟨1, "A", "AC", 10⟩).solved_time = 10 ∧
      (updateCell c6CellBefore ⟨1, "A", "AC", 10⟩).penalty = 10 + (1 : Int) * 20 ∧
      (updateCell c6CellBefore ⟨1, "A", "AC", 10⟩).display =
        "+" ++ (if 1 > 0 then natRepr 1 else "")) ∧
    (∃ r0 ∈ c6Board, r0.team_id = c6RowAfter.team_id ∧
      (c6RowAfter.status = r0.status ∨ ∃ c0, alookup "A" r0.status = some c0 ∧
        c6RowAfter.status = aset "A" (updateCell c0 ⟨1, "A", "AC", 10⟩) r0.status)) :=
  ⟨c6_amended_hardcoded_penalty.1 c6CellBefore ⟨1, "A", "AC", 10⟩ 1 rfl (Or.inr (by decide)),
   c6_amended_hardcoded_penalty.2 c6Board ⟨1, "A", "AC", 10⟩ c6RowAfter (by decide)⟩

/-! ### C1: the mutation surface does not re-invoke the resolver -/

/-- Refutation of C1 at a concrete input: starting from the freshly loaded
board of one team and one problem with no submissions, injecting an
accepted submission for (1, A) at minute 5 does not produce the resolver
output on the submission list with the corresponding record appended
(the mutated board shows a plus display, the resolver baseline always has
blank displays). -/
theorem c1_counterexample :
    update_submission
        (recalculate_board (calculate_final_board_state oneTeam oneProblem []).2)
        ⟨1, "A", "AC", 5⟩ ≠
      (calculate_final_board_state oneTeam oneProblem ([] ++ [⟨1, "A", 300, "OK"⟩])).2 := by
  decide

/-- Equality of the six resolver-computed terminal fields of two cells. -/
def finalFieldsEq (c c0 : Cell) : Prop :=
  c.final_is_ac = c0.final_is_ac ∧ c.final_solved_time = c0.final_solved_time ∧
  c.final_penalty = c0.final_penalty ∧ c.final_attempts_to_ac = c0.final_attempts_to_ac ∧
  c.final_effective_last_sub_time = c0.final_effective_last_sub_time ∧
  c.final_total_attempts = c0.final_total_attempts

theorem updateCell_preserves_final (c : Cell) (f : UpdateForm) :
    finalFieldsEq (updateCell c f) c := by
  unfold finalFieldsEq updateCell
  split
  · split
    · exact ⟨rfl, rfl, rfl, rfl, rfl, rfl⟩
    · exact ⟨rfl, rfl, rfl, rfl, rfl, rfl⟩
  · split
    · exact ⟨rfl, rfl, rfl, rfl, rfl, rfl⟩
    · exact ⟨rfl, rfl, rfl, rfl, rfl, rfl⟩

/-- C1 as amended: injecting a submission edits the matching cell of the
live board in place and re-invokes only `recalculate_board`; it appends
nothing to the submission list and never re-invokes the resolver, so every
cell of the mutated board keeps the resolver-computed final-prefixed fields
it had before the mutation (and the post-mutation board is in general not
the resolver output on the appended list). -/
theorem c1_amended_mutation_preserves_final_fields :
    ∀ (board : List Row) (f : UpdateForm) (r : Row), r ∈ update_submission board f →
      ∃ r0 ∈ board, r0.team_id = r.team_id ∧
        ∀ p c, (p, c) ∈ r.status → ∃ c0, (p, c0) ∈ r0.status ∧ finalFieldsEq c c0 := by
  intro board f r hr
  obtain ⟨y, hy, hry⟩ := recalculate_board_mem hr
  have hstat : r.status = y.status := by rw [hry]; exact rfl
  have hteam : r.team_id = y.team_id := by rw [hry]; exact rfl
  rcases findAndApply_mem board f y hy with hy2 | ⟨r0, hr0, _hteam0, hy2⟩
  · refine ⟨y, hy2, hteam.symm, ?_⟩
    intro p c hpc
    exact ⟨c, hstat ▸ hpc, rfl, rfl, rfl, rfl, rfl, rfl⟩
  · unfold applyToRow at hy2
    cases hal : alookup f.problem_id r0.status with
    | none =>
      rw [hal] at hy2
      refine ⟨r0, hr0, by rw [hteam, hy2], ?_⟩
      intro p c hpc
      have hpc2 : (p, c) ∈ r0.status := by rw [hstat, hy2] at hpc; exact hpc
      exact ⟨c, hpc2, rfl, rfl, rfl, rfl, rfl, rfl⟩
    | some c0 =>
      rw [hal] at hy2
      refine ⟨r0, hr0, by rw [hteam, hy2], ?_⟩
      intro p c hpc
      have hpc2 : (p, c) ∈ aset f.problem_id (updateCell c0 f) r0.status := by
        rw [hstat, hy2] at hpc
        exact hpc
      rcases mem_aset hpc2 with h | h
      · exact ⟨c, h, rfl, rfl, rfl, rfl, rfl, rfl⟩
      · have hp : p = f.problem_id := congrArg Prod.fst h
        have hc : c = updateCell c0 f := congrArg Prod.snd h
        refine ⟨c0, ?_, ?_⟩
        · rw [hp]
          exact alookup_mem hal
        · rw [hc]
          exact updateCell_preserves_final c0 f

/-- The row of the one-team board after injecting AC for (1, A) at minute 5
and re-ranking. -/
def c1RowAfter : Row := ⟨1, 1, "T1", 1, 5, [("A", ⟨"+", 5, 5, -1, false, -1, 0, 0, -1, 0⟩)]⟩

/-- Closed instantiation of the amended C1 on the one-team board: the
mutated row keeps the resolver-computed final fields of the original cell. -/
theorem c1_witness :
    ∃ r0 ∈ [rankedBlankRow], r0.team_id = c1RowAfter.team_id ∧
      ∀ p c, (p, c) ∈ c1RowAfter.status → ∃ c0, (p, c0) ∈ r0.status ∧ finalFieldsEq c c0 :=
  c1_amended_mutation_preserves_final_fields [rankedBlankRow] ⟨1, "A", "AC", 5⟩ c1RowAfter
    (by decide)

/-! ### C5: time-slice projection is monotonic in the cutoff -/

theorem startsWithPlus_minus (s : String) : startsWithPlus ("-" ++ s) = false := by
  unfold startsWithPlus
  have h : (("-" ++ s).data).head? = some (Char.ofNat 45) := by
    rw [String.data_append]
    rfl
  rw [h]
  rfl

theorem startsWithPlus_empty : startsWithPlus "" = false := rfl

/-- C5 (spec-modelled projector): for a baseline cell (blank display) and
cutoffs c1 < c2, if the cell is shown solved at c1 then the projection at
c2 is identical — still shown solved, with the same solve time and the same
penalty; a cell never un-solves as the cutoff grows. -/
theorem c5_projection_monotonic (c : Cell) (pairSubs : List Sub) (c1 c2 : Int)
    (hd : c.display = "") (hlt : c1 < c2)
    (hsolved : startsWithPlus (projectCell c pairSubs c1).display = true) :
    projectCell c pairSubs c2 = projectCell c pairSubs c1 ∧
    startsWithPlus (projectCell c pairSubs c2).display = true ∧
    (projectCell c pairSubs c2).solved_time = (projectCell c pairSubs c1).solved_time ∧
    (projectCell c pairSubs c2).penalty = (projectCell c pairSubs c1).penalty := by
  by_cases hb : (c.final_is_ac && decide (c.final_solved_time ≤ c1)) = true
  · have hb2 : (c.final_is_ac && decide (c.final_solved_time ≤ c2)) = true := by
      have hb3 := hb
      rw [Bool.and_eq_true] at hb3
      have hle := of_decide_eq_true hb3.2
      rw [Bool.and_eq_true]
      exact ⟨hb3.1, decide_eq_true (le_of_lt (lt_of_le_of_lt hle hlt))⟩
    have heq : projectCell c pairSubs c2 = projectCell c pairSubs c1 := by
      simp only [projectCell]
      rw [if_pos hb, if_pos hb2]
    exact ⟨heq, by rw [heq]; exact hsolved, by rw [heq], by rw [heq]⟩
  · exfalso
    simp only [projectCell] at hsolved
    rw [if_neg hb] at hsolved
    cases hf : (pairSubs.filter (fun s => decide (s.time ≤ c1))).isEmpty with
    | true =>
      simp only [hf, Bool.not_true, Bool.false_eq_true, if_false] at hsolved
      rw [hd, startsWithPlus_empty] at hsolved
      exact Bool.false_ne_true hsolved
    | false =>
      simp only [hf, Bool.not_false, if_true] at hsolved
      rw [startsWithPlus_minus] at hsolved
      exact Bool.false_ne_true hsolved

/-- Concrete baseline cell for the projection witness: terminally accepted
at 100 s with one prior rejection and penalty 23. -/
def c5Cell : Cell := ⟨"", 0, 0, -1, true, 100, 23, 2, 100, 2⟩

/-- Closed instantiation of C5: the cell shown solved at cutoff 150 is
projected identically at cutoff 400. -/
theorem c5_witness :
    projectCell c5Cell [] 400 = projectCell c5Cell [] 150 ∧
    startsWithPlus (projectCell c5Cell [] 400).display = true ∧
    (projectCell c5Cell [] 400).solved_time = (projectCell c5Cell [] 150).solved_time ∧
    (projectCell c5Cell [] 400).penalty = (projectCell c5Cell [] 150).penalty :=
  c5_projection_monotonic c5Cell [] 150 400 rfl (by decide) (by decide)

/-! ### C10: the missing-log path -/

/-- C10 evaluated on the code: when the log source is absent,
`parse_contest_data` returns the all-empty five-tuple without invoking the
resolver, and that value is byte-identical to the result of a successful
parse of a genuinely empty contest — no error marker distinguishes the
missing-data case, so nothing downstream can surface a data-unavailable
condition from it. -/
theorem c10_missing_log_indistinguishable :
    parse_contest_data none = ([], [], [], [], []) ∧
    parse_contest_data none = parse_contest_data (some ([], [], [])) :=
  ⟨rfl, rfl⟩

end LuBoard
